import Mathlib

/-!
Verification of the risk-interaction network engine
(`src/risk_analysis/interaction_analysis.py` and
`src/risk_analysis/systemic_risk_analysis.py`).

Python floats are embedded as rationals (`ℚ`); container iteration order is
preserved by using insertion-ordered association lists for Python dicts and
`networkx` node/edge stores.
-/

namespace RiskAssessment

/-- Modelled from the spec: the `Risk` record of `src/models.py`, which is not
in the repository (only its callers and tests are).  The spec describes an
immutable record with a unique numeric identifier, free-text description,
category, numeric likelihood and impact; the tests and the interaction prompt
additionally use a `subcategory` field. -/
structure Risk where
  id : Int
  description : String
  category : String
  subcategory : String
  likelihood : ℚ
  impact : ℚ
deriving Repr, DecidableEq

/-- Modelled from the spec: the `RiskInteraction` record of `src/models.py`,
which is not in the repository.  It is constructed positionally in
`analyze_risk_interactions` as
`RiskInteraction(risk1.id, risk2.id, interaction_score, interaction_type, analysis)`. -/
structure RiskInteraction where
  risk1_id : Int
  risk2_id : Int
  interaction_score : ℚ
  interaction_type : String
  analysis : String
deriving Repr, DecidableEq

/-!
Python float arithmetic is embedded into `ℚ`.  The Batteries definitions of
`Rat.add`, `Rat.mul`, `Rat.div` are `@[irreducible]`, so the embedding uses
`Rat.divInt`-based equivalents (proved equal to `+`, `*`, `/` below) to keep
every definition evaluable by `decide` on concrete inputs.
-/

/-- Embedded float multiplication. -/
def fmul (a b : ℚ) : ℚ := Rat.divInt (a.num * b.num) ((a.den : Int) * b.den)

/-- Embedded float addition. -/
def fadd (a b : ℚ) : ℚ :=
  Rat.divInt (a.num * (b.den : Int) + b.num * (a.den : Int)) ((a.den : Int) * b.den)

/-- Embedded float division. -/
def fdiv (a b : ℚ) : ℚ := Rat.divInt (a.num * (b.den : Int)) ((a.den : Int) * b.num)

theorem fmul_eq (a b : ℚ) : fmul a b = a * b := by
  unfold fmul
  rw [Rat.divInt_eq_div]
  push_cast
  rw [← div_mul_div_comm, Rat.num_div_den, Rat.num_div_den]

theorem fadd_eq (a b : ℚ) : fadd a b = a + b := by
  have ha : ((a.den : ℚ)) ≠ 0 := Nat.cast_ne_zero.mpr a.den_nz
  have hb : ((b.den : ℚ)) ≠ 0 := Nat.cast_ne_zero.mpr b.den_nz
  have ha' : (a.num : ℚ) = a * a.den := (div_eq_iff ha).mp (Rat.num_div_den a)
  have hb' : (b.num : ℚ) = b * b.den := (div_eq_iff hb).mp (Rat.num_div_den b)
  unfold fadd
  rw [Rat.divInt_eq_div]
  push_cast
  rw [div_eq_iff (mul_ne_zero ha hb), ha', hb']
  ring

theorem fdiv_eq (a b : ℚ) : fdiv a b = a / b := by
  unfold fdiv
  rw [Rat.divInt_eq_div]
  push_cast
  rcases eq_or_ne b 0 with hb | hb
  · subst hb; simp
  · have had : ((a.den : ℚ)) ≠ 0 := Nat.cast_ne_zero.mpr a.den_nz
    have hbd : ((b.den : ℚ)) ≠ 0 := Nat.cast_ne_zero.mpr b.den_nz
    have ha' : (a.num : ℚ) = a * a.den := (div_eq_iff had).mp (Rat.num_div_den a)
    have hb' : (b.num : ℚ) = b * b.den := (div_eq_iff hbd).mp (Rat.num_div_den b)
    rw [ha', hb', div_eq_div_iff (mul_ne_zero had (mul_ne_zero hb hbd)) hb]
    ring

/-- `determine_interaction_type` (interaction_analysis.py lines 48-54):
`if score < 0.3: "Weak" elif score < 0.7: "Moderate" else: "Strong"`. -/
def determine_interaction_type (score : ℚ) : String :=
  if score < mkRat 3 10 then "Weak"
  else if score < mkRat 7 10 then "Moderate"
  else "Strong"

/-!
### The numeric-token scanner of `extract_interaction_score`

`extract_interaction_score` runs `re.findall(r"[-+]?\d*\.\d+|\d+", analysis)`
and returns `float(numbers[-1])` when the list is non-empty, else `0.5`.
We embed Python's regex scan directly: at each position the engine first tries
the alternative `[-+]?\d*\.\d+`, then `\d+`; on success it continues after the
match, otherwise it advances one character.
-/

/-- The leading `[-+]?` of the float alternative: the optionally consumed sign
and the remaining input. -/
def splitSign (l : List Char) : List Char × List Char :=
  match l with
  | c :: rest => if c = '-' ∨ c = '+' then ([c], rest) else ([], l)
  | [] => ([], [])

/-- Try to match `[-+]?\d*\.\d+` at the start of `l`; on success return the
matched characters and the rest of the input. -/
def matchFloatTok (l : List Char) : Option (List Char × List Char) :=
  match (splitSign l).2.dropWhile Char.isDigit with
  | '.' :: l3 =>
      if (l3.takeWhile Char.isDigit).isEmpty then none
      else some ((splitSign l).1 ++ (splitSign l).2.takeWhile Char.isDigit
                   ++ '.' :: l3.takeWhile Char.isDigit,
                 l3.dropWhile Char.isDigit)
  | _ => none

/-- Try to match `\d+` at the start of `l`. -/
def matchIntTok (l : List Char) : Option (List Char × List Char) :=
  let ds := l.takeWhile Char.isDigit
  if ds.isEmpty then none else some (ds, l.dropWhile Char.isDigit)

theorem splitSign_snd_length (l : List Char) : (splitSign l).2.length ≤ l.length := by
  unfold splitSign
  match l with
  | [] => simp
  | c :: rest => by_cases h : c = '-' ∨ c = '+' <;> simp [h]

theorem matchFloatTok_rest_lt (l m r : List Char)
    (h : matchFloatTok l = some (m, r)) : r.length < l.length := by
  unfold matchFloatTok at h
  split at h
  · rename_i l3 heq
    have hsuf : ('.' :: l3).length ≤ (splitSign l).2.length := by
      rw [← heq]; exact (List.dropWhile_suffix _).length_le
    have hl3 : l3.length < l.length := by
      have := splitSign_snd_length l
      simp only [List.length_cons] at hsuf
      omega
    split at h
    · exact absurd h (by simp)
    · have hr : r = List.dropWhile Char.isDigit l3 := by
        have h' := Option.some.inj h
        exact congrArg Prod.snd h' |>.symm
      have : (List.dropWhile Char.isDigit l3).length ≤ l3.length :=
        (List.dropWhile_suffix _).length_le
      subst hr
      omega
  · exact absurd h (by simp)

theorem matchIntTok_rest_lt (l m r : List Char)
    (h : matchIntTok l = some (m, r)) : r.length < l.length := by
  unfold matchIntTok at h
  by_cases he : (List.takeWhile Char.isDigit l).isEmpty
  · simp [he] at h
  · simp only [he, Bool.false_eq_true, if_false, Option.some.injEq, Prod.mk.injEq] at h
    have hlen : (List.takeWhile Char.isDigit l).length +
        (List.dropWhile Char.isDigit l).length = l.length := by
      rw [← List.length_append, List.takeWhile_append_dropWhile]
    have hne : (List.takeWhile Char.isDigit l).length ≠ 0 := by
      intro h0
      exact absurd (by simpa [List.isEmpty_iff, List.length_eq_zero] using h0) he
    rw [← h.2]
    omega

/-- The scan of `re.findall(r"[-+]?\d*\.\d+|\d+", ·)`, fuelled so that it is
structural (and hence evaluable by `decide`); `findallNum` supplies the fuel. -/
def findallNumAux : ℕ → List Char → List (List Char)
  | 0, _ => []
  | _ + 1, [] => []
  | fuel + 1, c :: rest =>
    match matchFloatTok (c :: rest) with
    | some (m, r) => m :: findallNumAux fuel r
    | none =>
      match matchIntTok (c :: rest) with
      | some (m, r) => m :: findallNumAux fuel r
      | none => findallNumAux fuel rest

/-- The list of tokens matched by `re.findall(r"[-+]?\d*\.\d+|\d+", ·)`,
left to right.  One unit of fuel per character suffices because every step of
the scan consumes at least one character. -/
def findallNum (l : List Char) : List (List Char) := findallNumAux l.length l

/-- Value of a digit character. -/
def digitVal (c : Char) : ℕ := c.toNat - 48

/-- Decimal value of a digit string. -/
def natOfDigits (l : List Char) : ℕ := l.foldl (fun a c => 10 * a + digitVal c) 0

/-- Decimal value of an unsigned token `ip.frac` (either part possibly empty):
`(ip * 10^|frac| + frac) / 10^|frac|`. -/
def parseUnsigned (l : List Char) : ℚ :=
  Rat.divInt
    (natOfDigits (l.takeWhile (· ≠ '.')) * 10 ^ ((l.dropWhile (· ≠ '.')).tail).length
      + natOfDigits ((l.dropWhile (· ≠ '.')).tail))
    (10 ^ ((l.dropWhile (· ≠ '.')).tail).length)

/-- Python's `float(·)` applied to a token matched by the regex: an optional
sign, an integer part, and an optional `.`-separated fractional part. -/
def parseFloatTok (l : List Char) : ℚ :=
  match l with
  | '-' :: r => Rat.divInt (-(parseUnsigned r).num) ((parseUnsigned r).den : Int)
  | '+' :: r => parseUnsigned r
  | _ => parseUnsigned l

/-- `extract_interaction_score` (interaction_analysis.py lines 43-46):
`float(numbers[-1])` when the scan found tokens, else the documented default
`0.5`. -/
def extract_interaction_score (analysis : String) : ℚ :=
  match (findallNum analysis.data).getLast? with
  | some tok => parseFloatTok tok
  | none => mkRat 1 2

/-!
### Token lemmas for the scanner
-/

theorem splitSign_snd_suffix (l : List Char) : (splitSign l).2 <:+ l := by
  unfold splitSign
  match l with
  | [] => exact List.suffix_refl _
  | c :: rest =>
    by_cases h : c = '-' ∨ c = '+'
    · simp only [h, if_true]
      exact ⟨[c], rfl⟩
    · simp only [h, if_false]
      exact List.suffix_refl _

theorem matchFloatTok_digit (l m r : List Char)
    (h : matchFloatTok l = some (m, r)) : ∃ c ∈ l, c.isDigit := by
  unfold matchFloatTok at h
  split at h
  · rename_i l3 heq
    split at h
    · exact absurd h (by simp)
    · rename_i hfr
      have hne : l3.takeWhile Char.isDigit ≠ [] := by
        simpa [List.isEmpty_iff] using hfr
      obtain ⟨d, hd⟩ := List.exists_mem_of_ne_nil _ hne
      have hdig : d.isDigit := List.mem_takeWhile_imp hd
      have hdl3 : d ∈ l3 := (List.takeWhile_prefix _).subset hd
      have h2 : ('.' :: l3) <:+ (splitSign l).2 := heq ▸ List.dropWhile_suffix _
      exact ⟨d, (splitSign_snd_suffix l).subset (h2.subset (List.mem_cons_of_mem _ hdl3)),
        hdig⟩
  · exact absurd h (by simp)

theorem matchIntTok_digit (l m r : List Char)
    (h : matchIntTok l = some (m, r)) : ∃ c ∈ l, c.isDigit := by
  unfold matchIntTok at h
  by_cases he : (List.takeWhile Char.isDigit l).isEmpty
  · simp [he] at h
  · have hne : l.takeWhile Char.isDigit ≠ [] := by
      simpa [List.isEmpty_iff] using he
    obtain ⟨d, hd⟩ := List.exists_mem_of_ne_nil _ hne
    exact ⟨d, (List.takeWhile_prefix _).subset hd, List.mem_takeWhile_imp hd⟩

theorem matchIntTok_none_head (c : Char) (rest : List Char)
    (h : matchIntTok (c :: rest) = none) : ¬ c.isDigit := by
  intro hc
  unfold matchIntTok at h
  rw [List.takeWhile_cons_of_pos hc] at h
  simp at h

theorem findallNumAux_ne_nil (fuel : ℕ) (l : List Char) (hfuel : l.length ≤ fuel)
    (hd : ∃ c ∈ l, c.isDigit) : findallNumAux fuel l ≠ [] := by
  induction fuel generalizing l with
  | zero =>
    match l with
    | [] => rcases hd with ⟨d, hdm, _⟩; exact absurd hdm (List.not_mem_nil d)
    | c :: rest => simp at hfuel
  | succ fuel ih =>
    match l with
    | [] => rcases hd with ⟨d, hdm, _⟩; exact absurd hdm (List.not_mem_nil d)
    | c :: rest =>
      unfold findallNumAux
      rcases hf : matchFloatTok (c :: rest) with _ | ⟨m, r⟩
      · rcases hi : matchIntTok (c :: rest) with _ | ⟨m, r⟩
        · simp only
          apply ih rest (by simpa using Nat.le_of_succ_le_succ (by simpa using hfuel))
          rcases hd with ⟨d, hdm, hdig⟩
          rcases List.mem_cons.mp hdm with hdc | hdr
          · exact absurd hdig (hdc ▸ matchIntTok_none_head c rest hi)
          · exact ⟨d, hdr, hdig⟩
        · simp
      · simp

theorem findallNumAux_nil_of_nodigit (fuel : ℕ) (l : List Char)
    (hnd : ∀ c ∈ l, ¬ c.isDigit) : findallNumAux fuel l = [] := by
  induction fuel generalizing l with
  | zero => rfl
  | succ fuel ih =>
    match l with
    | [] => rfl
    | c :: rest =>
      unfold findallNumAux
      rcases hf : matchFloatTok (c :: rest) with _ | ⟨m, r⟩
      · rcases hi : matchIntTok (c :: rest) with _ | ⟨m, r⟩
        · exact ih rest (fun d hdr => hnd d (List.mem_cons_of_mem c hdr))
        · obtain ⟨d, hdm, hdig⟩ := matchIntTok_digit _ _ _ hi
          exact absurd hdig (hnd d hdm)
      · obtain ⟨d, hdm, hdig⟩ := matchFloatTok_digit _ _ _ hf
        exact absurd hdig (hnd d hdm)

theorem findallNum_ne_nil_of_digit (l : List Char) (hd : ∃ c ∈ l, c.isDigit) :
    findallNum l ≠ [] :=
  findallNumAux_ne_nil l.length l le_rfl hd

theorem findallNum_nil_of_nodigit (l : List Char) (hnd : ∀ c ∈ l, ¬ c.isDigit) :
    findallNum l = [] :=
  findallNumAux_nil_of_nodigit l.length l hnd

/-!
### Claim C2: interaction-type bands
-/

/-- C2: interaction-type classification is a pure function of the score with
the stated boundary inclusivity: `s < 0.3 → Weak`, `0.3 ≤ s < 0.7 → Moderate`,
`0.7 ≤ s → Strong`. -/
theorem determine_interaction_type_bands (s : ℚ) :
    (s < 3/10 → determine_interaction_type s = "Weak") ∧
    (3/10 ≤ s → s < 7/10 → determine_interaction_type s = "Moderate") ∧
    (7/10 ≤ s → determine_interaction_type s = "Strong") := by
  have h3 : (mkRat 3 10 : ℚ) = 3/10 := by
    rw [Rat.mkRat_eq_div]; norm_num
  have h7 : (mkRat 7 10 : ℚ) = 7/10 := by
    rw [Rat.mkRat_eq_div]; norm_num
  unfold determine_interaction_type
  rw [h3, h7]
  refine ⟨fun h => if_pos h, fun h1 h2 => ?_, fun h => ?_⟩
  · rw [if_neg (not_lt.mpr h1), if_pos h2]
  · rw [if_neg (not_lt.mpr (le_trans (by norm_num) h)), if_neg (not_lt.mpr h)]

/-- Witness for C2 at the four scores named by the spec:
0.29→Weak, 0.30→Moderate, 0.69→Moderate, 0.70→Strong. -/
theorem determine_interaction_type_bands_witness :
    determine_interaction_type (29/100) = "Weak" ∧
    determine_interaction_type (3/10) = "Moderate" ∧
    determine_interaction_type (69/100) = "Moderate" ∧
    determine_interaction_type (7/10) = "Strong" :=
  ⟨(determine_interaction_type_bands (29/100)).1 (by norm_num),
   (determine_interaction_type_bands (3/10)).2.1 (by norm_num) (by norm_num),
   (determine_interaction_type_bands (69/100)).2.1 (by norm_num) (by norm_num),
   (determine_interaction_type_bands (7/10)).2.2 (by norm_num)⟩

/-!
### Claim C6: score extraction
-/

/-- C6 counterexample: the extracted score is NOT always in [0,1] — on the
response "The combined interaction score is 2.5" the code extracts 2.5. -/
theorem extract_interaction_score_outside_unit_interval :
    extract_interaction_score "The combined interaction score is 2.5" = 5/2 ∧
    ¬ (extract_interaction_score "The combined interaction score is 2.5" ≤ 1) := by
  have h : extract_interaction_score "The combined interaction score is 2.5"
      = mkRat 5 2 := by decide
  constructor
  · rw [h, Rat.mkRat_eq_div]; norm_num
  · rw [h]; decide

/-- C6 (amended): the extracted score is the value of the last
floating-point-looking numeric token of the response when one exists (it is
not clamped to [0,1]), and exactly 0.5 when the response contains no numeric
token (equivalently, no digit). -/
theorem extract_interaction_score_last_token (s : String) :
    ((∀ c ∈ s.data, ¬ c.isDigit) → extract_interaction_score s = 1/2) ∧
    ((∃ c ∈ s.data, c.isDigit) →
      findallNum s.data ≠ [] ∧
      extract_interaction_score s = parseFloatTok ((findallNum s.data).getLastD [])) := by
  constructor
  · intro h
    unfold extract_interaction_score
    rw [findallNum_nil_of_nodigit _ h]
    simp only [List.getLast?_nil]
    rw [Rat.mkRat_eq_div]
    norm_num
  · intro h
    have hne := findallNum_ne_nil_of_digit _ h
    refine ⟨hne, ?_⟩
    unfold extract_interaction_score
    rcases hx : (findallNum s.data).getLast? with _ | tok
    · exact absurd (List.getLast?_eq_none_iff.mp hx) hne
    · rw [List.getLastD_eq_getLast?, hx]
      rfl

/-- Witness for C6: a digit-free response defaults to 0.5, and a response with
two scores extracts the last one. -/
theorem extract_interaction_score_last_token_witness :
    extract_interaction_score "the risks are unrelated" = 1/2 ∧
    (findallNum "maybe 0.3, but likely 0.9".data ≠ [] ∧
      extract_interaction_score "maybe 0.3, but likely 0.9"
        = parseFloatTok ((findallNum "maybe 0.3, but likely 0.9".data).getLastD [])) :=
  ⟨(extract_interaction_score_last_token "the risks are unrelated").1 (by decide),
   (extract_interaction_score_last_token "maybe 0.3, but likely 0.9").2 (by decide)⟩

/-!
### Claim C7: pairwise interaction generation

`analyze_risk_interactions` iterates `for i, risk1 in enumerate(risks)` and
`for risk2 in risks[i+1:]`, i.e. over the ordered index pairs `i < j`.
-/

/-- The pairs `(risks[i], risks[j])` with `i < j`, in the order of the nested
loops of `analyze_risk_interactions`. -/
def orderedPairs {α : Type} : List α → List (α × α)
  | [] => []
  | x :: rest => (rest.map (fun y => (x, y))) ++ orderedPairs rest

/-- `analyze_risk_interactions` (interaction_analysis.py lines 13-41), with the
LLM chat call abstracted as an `oracle` from the pair of risks to the free-text
response (spec §1/§6: the core consumes only the score extracted from the
response text). -/
def analyze_risk_interactions (oracle : Risk → Risk → String) (risks : List Risk) :
    List RiskInteraction :=
  (orderedPairs risks).map (fun p =>
    let response := oracle p.1 p.2
    let score := extract_interaction_score response
    ⟨p.1.id, p.2.id, score, determine_interaction_type score, response⟩)

theorem orderedPairs_length {α : Type} (l : List α) :
    (orderedPairs l).length = l.length.choose 2 := by
  induction l with
  | nil => rfl
  | cons x rest ih =>
    show (rest.map (fun y => (x, y)) ++ orderedPairs rest).length = _
    rw [List.length_append, List.length_map, ih, List.length_cons,
      Nat.choose_succ_succ, Nat.choose_one_right]

theorem mem_orderedPairs {α : Type} {p : α × α} {l : List α}
    (h : p ∈ orderedPairs l) : [p.1, p.2].Sublist l := by
  induction l with
  | nil => exact absurd h (List.not_mem_nil p)
  | cons x rest ih =>
    rcases List.mem_append.mp h with hl | hr
    · obtain ⟨y, hy, hxy⟩ := List.mem_map.mp hl
      rw [← hxy]
      exact (List.singleton_sublist.mpr hy).cons₂ x
    · exact (ih hr).cons x

theorem orderedPairs_pairwise (l : List Risk) (hnd : (l.map Risk.id).Nodup) :
    (orderedPairs l).Pairwise (fun p q : Risk × Risk =>
      ¬((p.1.id = q.1.id ∧ p.2.id = q.2.id) ∨
        (p.1.id = q.2.id ∧ p.2.id = q.1.id))) := by
  induction l with
  | nil => exact .nil
  | cons x rest ih =>
    rw [List.map_cons, List.nodup_cons] at hnd
    obtain ⟨hx, hrest⟩ := hnd
    show ((rest.map (fun y => (x, y))) ++ orderedPairs rest).Pairwise _
    apply List.pairwise_append.mpr
    refine ⟨?_, ih hrest, ?_⟩
    · rw [List.pairwise_map]
      have h1 : rest.Pairwise (fun y z : Risk => y.id ≠ z.id) := by
        rw [List.Nodup, List.pairwise_map] at hrest
        exact hrest
      have h2 : rest.Pairwise (fun y z : Risk => x.id ≠ z.id) :=
        List.pairwise_of_forall_mem_list (fun y _ z hz heq =>
          hx (heq ▸ List.mem_map_of_mem Risk.id hz))
      exact (h1.and h2).imp (fun h => by
        rintro (⟨_, hc⟩ | ⟨hc, _⟩)
        · exact h.1 hc
        · exact h.2 hc)
    · intro p hp q hq
      obtain ⟨y, hy, rfl⟩ := List.mem_map.mp hp
      have hsub := mem_orderedPairs hq
      have hq1 : q.1 ∈ rest := hsub.subset (by simp)
      have hq2 : q.2 ∈ rest := hsub.subset (by simp)
      rintro (⟨h1, _⟩ | ⟨h1, _⟩)
      · exact hx (h1 ▸ List.mem_map_of_mem Risk.id hq1)
      · exact hx (h1 ▸ List.mem_map_of_mem Risk.id hq2)

/-- C7: over a risk list with distinct ids, `analyze_risk_interactions`
produces exactly `C(n,2) = n*(n-1)/2` records, with no self-pair and no
duplicate unordered pair of risk ids. -/
theorem analyze_risk_interactions_pairs (oracle : Risk → Risk → String)
    (risks : List Risk) (hnd : (risks.map Risk.id).Nodup) :
    (analyze_risk_interactions oracle risks).length
        = risks.length * (risks.length - 1) / 2 ∧
    (∀ it ∈ analyze_risk_interactions oracle risks, it.risk1_id ≠ it.risk2_id) ∧
    (analyze_risk_interactions oracle risks).Pairwise (fun a b =>
      ¬((a.risk1_id = b.risk1_id ∧ a.risk2_id = b.risk2_id) ∨
        (a.risk1_id = b.risk2_id ∧ a.risk2_id = b.risk1_id))) := by
  refine ⟨?_, ?_, ?_⟩
  · rw [analyze_risk_interactions, List.length_map, orderedPairs_length,
      Nat.choose_two_right]
  · intro it hit
    obtain ⟨p, hp, rfl⟩ := List.mem_map.mp hit
    have hsub := (mem_orderedPairs hp).map Risk.id
    have : (risks.map Risk.id).Nodup := hnd
    have hnd2 := this.sublist hsub
    simp only [List.map_cons, List.map_nil, List.nodup_cons] at hnd2
    intro hc
    have hc' : p.1.id = p.2.id := hc
    exact hnd2.1 (List.mem_singleton.mpr hc')
  · rw [analyze_risk_interactions, List.pairwise_map]
    exact orderedPairs_pairwise risks hnd

/-- Witness for C7 on three concrete risks. -/
theorem analyze_risk_interactions_pairs_witness :
    ((analyze_risk_interactions (fun _ _ => "interaction score: 0.8")
        [⟨1, "flood", "Physical", "Acute", 0, 0⟩,
         ⟨2, "carbon tax", "Transition", "Policy", 0, 0⟩,
         ⟨3, "demand shift", "Market", "Demand", 0, 0⟩]).length = 3 * (3 - 1) / 2) ∧
    (∀ it ∈ analyze_risk_interactions (fun _ _ => "interaction score: 0.8")
        [⟨1, "flood", "Physical", "Acute", 0, 0⟩,
         ⟨2, "carbon tax", "Transition", "Policy", 0, 0⟩,
         ⟨3, "demand shift", "Market", "Demand", 0, 0⟩], it.risk1_id ≠ it.risk2_id) := by
  have h := analyze_risk_interactions_pairs (fun _ _ => "interaction score: 0.8")
    [⟨1, "flood", "Physical", "Acute", 0, 0⟩,
     ⟨2, "carbon tax", "Transition", "Policy", 0, 0⟩,
     ⟨3, "demand shift", "Market", "Demand", 0, 0⟩] (by decide)
  exact ⟨h.1.trans (by rfl), h.2.1⟩

/-!
### The `networkx` graph model

`nx.Graph` is embedded as insertion-ordered node and edge stores.  `add_node`
on an existing node updates its attributes; `add_edge` silently creates
missing endpoint nodes (without attributes) and silently overwrites the data
of an existing edge with the same unordered endpoint pair — exactly the
`networkx` semantics `build_risk_network` relies on.
-/

/-- An undirected edge with its `weight` and `type` attributes. -/
structure Edge where
  u : Int
  v : Int
  weight : ℚ
  type : String
deriving Repr, DecidableEq

/-- The `nx.Graph` state: nodes (with their optional `Risk` attribute bag, in
insertion order) and edges (in insertion order). -/
structure NXGraph where
  nodes : List (Int × Option Risk)
  edges : List Edge
deriving Repr, DecidableEq

/-- The node identifiers, in insertion order (`G.nodes()`). -/
def NXGraph.nodeKeys (G : NXGraph) : List Int := G.nodes.map (·.1)

/-- `v in G` for nodes. -/
def NXGraph.hasNode (G : NXGraph) (v : Int) : Bool := G.nodes.any (·.1 == v)

/-- Does `e` join the unordered pair `{a, b}`? -/
def edgeMatches (e : Edge) (a b : Int) : Bool :=
  (e.u == a && e.v == b) || (e.u == b && e.v == a)

/-- `networkx` implicitly creates a missing endpoint node (with no attributes)
when an edge touching it is added. -/
def addNodeAuto (G : NXGraph) (v : Int) : NXGraph :=
  if G.hasNode v then G else ⟨G.nodes ++ [(v, none)], G.edges⟩

/-- `G.add_node(v, **attrs)`. -/
def NXGraph.add_node (G : NXGraph) (v : Int) (r : Risk) : NXGraph :=
  if G.hasNode v then
    ⟨G.nodes.map (fun p => if p.1 == v then (p.1, some r) else p), G.edges⟩
  else ⟨G.nodes ++ [(v, some r)], G.edges⟩

/-- `G.add_edge(a, b, weight=w, type=t)`: creates missing endpoints, then
either overwrites the data of the existing `{a, b}` edge or appends a new
edge. -/
def NXGraph.add_edge (G : NXGraph) (a b : Int) (w : ℚ) (t : String) : NXGraph :=
  if (addNodeAuto (addNodeAuto G a) b).edges.any (fun e => edgeMatches e a b) then
    ⟨(addNodeAuto (addNodeAuto G a) b).nodes,
     (addNodeAuto (addNodeAuto G a) b).edges.map
       (fun e => if edgeMatches e a b then ⟨e.u, e.v, w, t⟩ else e)⟩
  else
    ⟨(addNodeAuto (addNodeAuto G a) b).nodes,
     (addNodeAuto (addNodeAuto G a) b).edges ++ [⟨a, b, w, t⟩]⟩

/-- `build_risk_network` (interaction_analysis.py lines 56-64): one
`add_node` per risk (with the risk record as attribute bag), then one
`add_edge` per interaction. -/
def build_risk_network (risks : List Risk) (interactions : List RiskInteraction) :
    NXGraph :=
  interactions.foldl
    (fun G it => G.add_edge it.risk1_id it.risk2_id it.interaction_score it.interaction_type)
    (risks.foldl (fun G r => G.add_node r.id r) ⟨[], []⟩)

/-- `G[a][b]['weight']`: the weight of the edge joining `{a, b}`, if any. -/
def getWeight (G : NXGraph) (a b : Int) : Option ℚ :=
  (G.edges.find? (fun e => edgeMatches e a b)).map (·.weight)

/-- The edge record `build_risk_network` stores for an interaction. -/
def toEdge (it : RiskInteraction) : Edge :=
  ⟨it.risk1_id, it.risk2_id, it.interaction_score, it.interaction_type⟩

theorem edgeMatches_symm (e : Edge) (a b : Int) :
    edgeMatches e a b = edgeMatches e b a := by
  unfold edgeMatches
  rw [Bool.or_comm]

theorem find?_congr_pred {α : Type} (p q : α → Bool) (l : List α)
    (h : ∀ x, p x = q x) : l.find? p = l.find? q := by
  induction l with
  | nil => rfl
  | cons x xs ih =>
    rw [List.find?_cons, List.find?_cons, h x]
    cases q x with
    | true => rfl
    | false => exact ih

/-- C3 helper: edge-weight lookup is symmetric on every graph because the
lookup predicate is symmetric in the unordered pair. -/
theorem getWeight_symm (G : NXGraph) (a b : Int) : getWeight G a b = getWeight G b a := by
  unfold getWeight
  congr 1
  exact find?_congr_pred _ _ _ (fun e => edgeMatches_symm e a b)

theorem edgeMatches_toEdge_false (a b : RiskInteraction)
    (h : ¬((a.risk1_id = b.risk1_id ∧ a.risk2_id = b.risk2_id) ∨
           (a.risk1_id = b.risk2_id ∧ a.risk2_id = b.risk1_id))) :
    edgeMatches (toEdge a) b.risk1_id b.risk2_id = false := by
  push_neg at h
  unfold edgeMatches toEdge
  simp only [Bool.or_eq_false_iff, Bool.and_eq_false_iff, beq_eq_false_iff_ne, ne_eq]
  constructor
  · by_cases h1 : a.risk1_id = b.risk1_id
    · exact Or.inr (h.1 h1)
    · exact Or.inl h1
  · by_cases h2 : a.risk1_id = b.risk2_id
    · exact Or.inr (h.2 h2)
    · exact Or.inl h2

theorem add_node_fresh (G : NXGraph) (r : Risk) (h : G.hasNode r.id = false) :
    G.add_node r.id r = ⟨G.nodes ++ [(r.id, some r)], G.edges⟩ := by
  unfold NXGraph.add_node
  rw [h]
  rfl

theorem add_edge_fresh (G : NXGraph) (a b : Int) (w : ℚ) (t : String)
    (ha : G.hasNode a = true) (hb : G.hasNode b = true)
    (hno : ∀ e ∈ G.edges, edgeMatches e a b = false) :
    G.add_edge a b w t = ⟨G.nodes, G.edges ++ [⟨a, b, w, t⟩]⟩ := by
  have h1 : addNodeAuto G a = G := by unfold addNodeAuto; rw [ha]; rfl
  have h2 : addNodeAuto (addNodeAuto G a) b = G := by
    rw [h1]; unfold addNodeAuto; rw [hb]; rfl
  have hany : (G.edges.any (fun e => edgeMatches e a b)) = false :=
    List.any_eq_false.mpr (fun e he => by rw [hno e he]; exact Bool.false_ne_true)
  unfold NXGraph.add_edge
  rw [h2, hany]
  rfl

theorem foldl_add_node (risks : List Risk) (G : NXGraph)
    (hdisj : ∀ r ∈ risks, G.hasNode r.id = false)
    (hnd : (risks.map Risk.id).Nodup) :
    risks.foldl (fun G r => G.add_node r.id r) G
      = ⟨G.nodes ++ risks.map (fun r => (r.id, some r)), G.edges⟩ := by
  induction risks generalizing G with
  | nil => simp
  | cons r rest ih =>
    rw [List.foldl_cons, add_node_fresh G r (hdisj r (List.mem_cons_self r rest))]
    rw [List.map_cons, List.nodup_cons] at hnd
    have hd2 : ∀ r' ∈ rest,
        (⟨G.nodes ++ [(r.id, some r)], G.edges⟩ : NXGraph).hasNode r'.id = false := by
      intro r' hr'
      show (G.nodes ++ [(r.id, some r)]).any (·.1 == r'.id) = false
      rw [List.any_append]
      have hold : G.nodes.any (·.1 == r'.id) = false :=
        hdisj r' (List.mem_cons_of_mem r hr')
      have hnewnode : (((r.id, some r) : Int × Option Risk).1 == r'.id) = false := by
        have : r.id ≠ r'.id := fun hc =>
          hnd.1 (hc ▸ List.mem_map_of_mem Risk.id hr')
        simpa using this
      rw [hold]
      simp [hnewnode]
    rw [ih _ hd2 hnd.2]
    simp

theorem foldl_add_edge (its : List RiskInteraction) (G : NXGraph)
    (hkeys : ∀ it ∈ its, G.hasNode it.risk1_id = true ∧ G.hasNode it.risk2_id = true)
    (hnew : ∀ it ∈ its, ∀ e ∈ G.edges, edgeMatches e it.risk1_id it.risk2_id = false)
    (hdp : its.Pairwise (fun a b =>
      ¬((a.risk1_id = b.risk1_id ∧ a.risk2_id = b.risk2_id) ∨
        (a.risk1_id = b.risk2_id ∧ a.risk2_id = b.risk1_id)))) :
    its.foldl
      (fun G it => G.add_edge it.risk1_id it.risk2_id it.interaction_score it.interaction_type)
      G = ⟨G.nodes, G.edges ++ its.map toEdge⟩ := by
  induction its generalizing G with
  | nil => simp
  | cons a rest ih =>
    obtain ⟨ha1, ha2⟩ := hkeys a (List.mem_cons_self a rest)
    rw [List.foldl_cons,
      add_edge_fresh G _ _ _ _ ha1 ha2 (hnew a (List.mem_cons_self a rest)),
      show (⟨a.risk1_id, a.risk2_id, a.interaction_score, a.interaction_type⟩ : Edge)
        = toEdge a from rfl]
    rw [List.pairwise_cons] at hdp
    have hkeys' : ∀ it ∈ rest,
        (⟨G.nodes, G.edges ++ [toEdge a]⟩ : NXGraph).hasNode it.risk1_id = true ∧
        (⟨G.nodes, G.edges ++ [toEdge a]⟩ : NXGraph).hasNode it.risk2_id = true :=
      fun it hit => hkeys it (List.mem_cons_of_mem a hit)
    have hnew' : ∀ it ∈ rest, ∀ e ∈ G.edges ++ [toEdge a],
        edgeMatches e it.risk1_id it.risk2_id = false := by
      intro it hit e he
      rcases List.mem_append.mp he with hold | hnewe
      · exact hnew it (List.mem_cons_of_mem a hit) e hold
      · rw [List.mem_singleton.mp hnewe]
        exact edgeMatches_toEdge_false a it (hdp.1 it hit)
    rw [ih _ hkeys' hnew' hdp.2]
    simp

theorem find?_map_toEdge (its : List RiskInteraction) (it : RiskInteraction)
    (hmem : it ∈ its)
    (hdp : its.Pairwise (fun a b =>
      ¬((a.risk1_id = b.risk1_id ∧ a.risk2_id = b.risk2_id) ∨
        (a.risk1_id = b.risk2_id ∧ a.risk2_id = b.risk1_id)))) :
    (its.map toEdge).find? (fun e => edgeMatches e it.risk1_id it.risk2_id)
      = some (toEdge it) := by
  induction its with
  | nil => exact absurd hmem (List.not_mem_nil it)
  | cons a rest ih =>
    rw [List.pairwise_cons] at hdp
    rw [List.map_cons, List.find?_cons]
    rcases List.mem_cons.mp hmem with rfl | hmem'
    · have htrue : edgeMatches (toEdge it) it.risk1_id it.risk2_id = true := by
        simp [toEdge, edgeMatches]
      rw [htrue]
    · have hfalse : edgeMatches (toEdge a) it.risk1_id it.risk2_id = false :=
        edgeMatches_toEdge_false a it (hdp.1 it hmem')
      rw [hfalse]
      exact ih hmem' hdp.2

theorem list_any_map {α β : Type} (f : α → β) (l : List α) (p : β → Bool) :
    (l.map f).any p = l.any (p ∘ f) := by
  induction l with
  | nil => rfl
  | cons x xs ih => simp [ih]

theorem hasNode_mk_map (risks : List Risk) (es : List Edge) (v : Int) :
    ((⟨risks.map (fun r => (r.id, some r)), es⟩ : NXGraph).hasNode v = true)
      ↔ v ∈ risks.map Risk.id := by
  show ((risks.map (fun r => (r.id, some r))).any (·.1 == v)) = true ↔ _
  rw [list_any_map, List.any_eq_true]
  constructor
  · rintro ⟨r, hr, hb⟩
    exact List.mem_map.mpr ⟨r, hr, (by simpa using hb)⟩
  · intro hm
    obtain ⟨r, hr, rfl⟩ := List.mem_map.mp hm
    exact ⟨r, hr, by simp⟩

/-- C3: a graph built from `n` risks with distinct ids and `m` interactions
with distinct unordered pairs over those ids has exactly `n` nodes and `m`
edges, and edge-weight lookup is symmetric, returning each interaction's
score in both directions. -/
theorem build_risk_network_nodes_edges (risks : List Risk)
    (interactions : List RiskInteraction)
    (hnd : (risks.map Risk.id).Nodup)
    (hmem : ∀ it ∈ interactions,
      it.risk1_id ∈ risks.map Risk.id ∧ it.risk2_id ∈ risks.map Risk.id)
    (hself : ∀ it ∈ interactions, it.risk1_id ≠ it.risk2_id)
    (hdp : interactions.Pairwise (fun a b =>
      ¬((a.risk1_id = b.risk1_id ∧ a.risk2_id = b.risk2_id) ∨
        (a.risk1_id = b.risk2_id ∧ a.risk2_id = b.risk1_id)))) :
    (build_risk_network risks interactions).nodes.length = risks.length ∧
    (build_risk_network risks interactions).edges.length = interactions.length ∧
    (∀ a b : Int, getWeight (build_risk_network risks interactions) a b
        = getWeight (build_risk_network risks interactions) b a) ∧
    (∀ it ∈ interactions,
      getWeight (build_risk_network risks interactions) it.risk1_id it.risk2_id
          = some it.interaction_score ∧
      getWeight (build_risk_network risks interactions) it.risk2_id it.risk1_id
          = some it.interaction_score) := by
  have hG0 : risks.foldl (fun G r => G.add_node r.id r) ⟨[], []⟩
      = (⟨risks.map (fun r => (r.id, some r)), []⟩ : NXGraph) := by
    rw [foldl_add_node risks ⟨[], []⟩ (fun r _ => rfl) hnd]
    rfl
  have hfold : build_risk_network risks interactions
      = ⟨risks.map (fun r => (r.id, some r)), [] ++ interactions.map toEdge⟩ := by
    unfold build_risk_network
    rw [hG0, foldl_add_edge interactions _ ?_ ?_ hdp]
    · intro it hit
      exact ⟨(hasNode_mk_map risks [] it.risk1_id).mpr (hmem it hit).1,
        (hasNode_mk_map risks [] it.risk2_id).mpr (hmem it hit).2⟩
    · intro it _ e he
      exact absurd he (List.not_mem_nil e)
  refine ⟨?_, ?_, fun a b => getWeight_symm _ a b, ?_⟩
  · rw [hfold]
    simp
  · rw [hfold]
    simp
  · intro it hit
    have hforward :
        getWeight (build_risk_network risks interactions) it.risk1_id it.risk2_id
          = some it.interaction_score := by
      rw [hfold]
      show ((List.nil ++ interactions.map toEdge).find?
        (fun e => edgeMatches e it.risk1_id it.risk2_id)).map (fun e : Edge => e.weight)
        = some it.interaction_score
      rw [List.nil_append, find?_map_toEdge interactions it hit hdp]
      rfl
    exact ⟨hforward, (getWeight_symm _ it.risk2_id it.risk1_id).trans hforward⟩

/-- The four sample risks of the end-to-end scenario (spec §8). -/
def sampleRisks : List Risk :=
  [⟨1, "Physical Risk 1", "Physical", "Acute", mkRat 7 10, mkRat 4 5⟩,
   ⟨2, "Transition Risk 1", "Transition", "Policy", mkRat 3 5, mkRat 7 10⟩,
   ⟨3, "Market Risk 1", "Market", "Demand", mkRat 1 2, mkRat 3 5⟩,
   ⟨4, "Physical Risk 2", "Physical", "Chronic", mkRat 4 5, mkRat 9 10⟩]

/-- The five sample interactions of the end-to-end scenario (spec §8). -/
def sampleInteractions : List RiskInteraction :=
  [⟨1, 2, mkRat 7 10, "Strong", ""⟩,
   ⟨1, 3, mkRat 2 5, "Moderate", ""⟩,
   ⟨2, 3, mkRat 3 5, "Moderate", ""⟩,
   ⟨2, 4, mkRat 4 5, "Strong", ""⟩,
   ⟨3, 4, mkRat 1 2, "Moderate", ""⟩]

/-- Witness for C3 on the end-to-end scenario: 4 nodes, 5 edges, symmetric
weight lookup for the 1-2 edge. -/
theorem build_risk_network_nodes_edges_witness :
    (build_risk_network sampleRisks sampleInteractions).nodes.length = 4 ∧
    (build_risk_network sampleRisks sampleInteractions).edges.length = 5 ∧
    getWeight (build_risk_network sampleRisks sampleInteractions) 1 2
      = some (mkRat 7 10) ∧
    getWeight (build_risk_network sampleRisks sampleInteractions) 2 1
      = some (mkRat 7 10) := by
  have h := build_risk_network_nodes_edges sampleRisks sampleInteractions
    (by decide) (by decide) (by decide) (by decide)
  have hm : (⟨1, 2, mkRat 7 10, "Strong", ""⟩ : RiskInteraction) ∈ sampleInteractions := by
    decide
  have h12 := h.2.2.2 _ hm
  exact ⟨h.1.trans (by rfl), h.2.1.trans (by rfl), h12.1, h12.2⟩

/-!
### Claim C5: no integrity validation in `build_risk_network`
-/

theorem edges_addNodeAuto (G : NXGraph) (v : Int) :
    (addNodeAuto G v).edges = G.edges := by
  unfold addNodeAuto
  split <;> rfl

theorem nodes_add_edge (G : NXGraph) (a b : Int) (w : ℚ) (t : String) :
    (G.add_edge a b w t).nodes = (addNodeAuto (addNodeAuto G a) b).nodes := by
  unfold NXGraph.add_edge
  split <;> rfl

theorem hasNode_addNodeAuto_self (G : NXGraph) (v : Int) :
    (addNodeAuto G v).hasNode v = true := by
  unfold addNodeAuto
  by_cases h : G.hasNode v = true
  · rw [if_pos h]
    exact h
  · rw [if_neg h]
    show (G.nodes ++ [(v, none)]).any (·.1 == v) = true
    rw [List.any_append]
    simp

theorem hasNode_addNodeAuto_mono (G : NXGraph) (v x : Int)
    (h : G.hasNode x = true) : (addNodeAuto G v).hasNode x = true := by
  unfold addNodeAuto
  split
  · exact h
  · show (G.nodes ++ [(v, none)]).any (·.1 == x) = true
    have h' : (G.nodes.any (·.1 == x)) = true := h
    rw [List.any_append, h']
    rfl

theorem hasNode_add_edge_left (G : NXGraph) (a b : Int) (w : ℚ) (t : String) :
    (G.add_edge a b w t).hasNode a = true := by
  show ((G.add_edge a b w t).nodes.any (·.1 == a)) = true
  rw [nodes_add_edge]
  exact hasNode_addNodeAuto_mono _ b a (hasNode_addNodeAuto_self G a)

theorem hasNode_add_edge_right (G : NXGraph) (a b : Int) (w : ℚ) (t : String) :
    (G.add_edge a b w t).hasNode b = true := by
  show ((G.add_edge a b w t).nodes.any (·.1 == b)) = true
  rw [nodes_add_edge]
  exact hasNode_addNodeAuto_self _ b

theorem hasNode_add_edge_mono (G : NXGraph) (a b x : Int) (w : ℚ) (t : String)
    (h : G.hasNode x = true) : (G.add_edge a b w t).hasNode x = true := by
  show ((G.add_edge a b w t).nodes.any (·.1 == x)) = true
  rw [nodes_add_edge]
  exact hasNode_addNodeAuto_mono _ b x (hasNode_addNodeAuto_mono _ a x h)

theorem foldl_add_edge_hasNode_mono (its : List RiskInteraction) (G : NXGraph)
    (x : Int) (h : G.hasNode x = true) :
    (its.foldl (fun G it =>
      G.add_edge it.risk1_id it.risk2_id it.interaction_score it.interaction_type)
      G).hasNode x = true := by
  induction its generalizing G with
  | nil => exact h
  | cons a rest ih =>
    rw [List.foldl_cons]
    exact ih _ (hasNode_add_edge_mono G _ _ x _ _ h)

theorem foldl_add_edge_endpoints (its : List RiskInteraction) (G : NXGraph)
    (it : RiskInteraction) (hit : it ∈ its) :
    (its.foldl (fun G it =>
      G.add_edge it.risk1_id it.risk2_id it.interaction_score it.interaction_type)
      G).hasNode it.risk1_id = true ∧
    (its.foldl (fun G it =>
      G.add_edge it.risk1_id it.risk2_id it.interaction_score it.interaction_type)
      G).hasNode it.risk2_id = true := by
  induction its generalizing G with
  | nil => exact absurd hit (List.not_mem_nil it)
  | cons a rest ih =>
    rw [List.foldl_cons]
    rcases List.mem_cons.mp hit with rfl | hmem
    · exact ⟨foldl_add_edge_hasNode_mono rest _ _ (hasNode_add_edge_left G _ _ _ _),
        foldl_add_edge_hasNode_mono rest _ _ (hasNode_add_edge_right G _ _ _ _)⟩
    · exact ih _ hmem

theorem find?_append_of_none {α : Type} (p : α → Bool) (l1 l2 : List α)
    (h : ∀ x ∈ l1, p x = false) : (l1 ++ l2).find? p = l2.find? p := by
  induction l1 with
  | nil => rfl
  | cons x xs ih =>
    rw [List.cons_append, List.find?_cons, h x (List.mem_cons_self x xs)]
    exact ih (fun y hy => h y (List.mem_cons_of_mem x hy))

theorem find?_overwrite (es : List Edge) (a b : Int) (w : ℚ) (t : String)
    (h : es.any (fun e => edgeMatches e a b) = true) :
    ((es.map (fun e => if edgeMatches e a b then ⟨e.u, e.v, w, t⟩ else e)).find?
      (fun e => edgeMatches e a b)).map (·.weight) = some w := by
  induction es with
  | nil => simp at h
  | cons e es ih =>
    rw [List.map_cons, List.find?_cons]
    by_cases hpe : edgeMatches e a b = true
    · rw [if_pos hpe]
      have hpe' : edgeMatches (⟨e.u, e.v, w, t⟩ : Edge) a b = true := hpe
      rw [hpe']
      rfl
    · rw [if_neg hpe]
      have hpe' : edgeMatches e a b = false := Bool.eq_false_iff.mpr hpe
      rw [hpe']
      rw [List.any_cons, hpe'] at h
      exact ih (by simpa using h)

/-- After `add_edge(a, b, w, t)` the stored weight for `{a, b}` is `w`,
whether the pair was fresh or silently overwritten. -/
theorem getWeight_add_edge_self (G : NXGraph) (a b : Int) (w : ℚ) (t : String) :
    getWeight (G.add_edge a b w t) a b = some w := by
  unfold NXGraph.add_edge getWeight
  rw [edges_addNodeAuto, edges_addNodeAuto]
  by_cases hany : (G.edges.any (fun e => edgeMatches e a b)) = true
  · rw [if_pos hany]
    exact find?_overwrite G.edges a b w t hany
  · rw [if_neg hany]
    show ((G.edges ++ [(⟨a, b, w, t⟩ : Edge)]).find?
        (fun e => edgeMatches e a b)).map (fun e : Edge => e.weight)
      = some w
    rw [find?_append_of_none _ G.edges _
      (fun e he => Bool.eq_false_iff.mpr (fun hc =>
        hany (List.any_eq_true.mpr ⟨e, he, hc⟩)))]
    have : edgeMatches (⟨a, b, w, t⟩ : Edge) a b = true := by
      simp [edgeMatches]
    rw [List.find?_cons, this]
    rfl

/-- C5 counterexample: `build_risk_network` does not abort on bad input — an
interaction naming the unknown risk id 5 yields a 2-node graph in which 5 was
silently added, and a duplicated unordered pair yields one edge whose weight
is the later interaction's score (the earlier 0.3 is silently overwritten). -/
theorem build_risk_network_counterexample :
    (build_risk_network [⟨1, "flood", "Physical", "Acute", 0, 0⟩]
        [⟨1, 5, mkRat 1 2, "Moderate", ""⟩]).nodes.length = 2 ∧
    (build_risk_network [⟨1, "flood", "Physical", "Acute", 0, 0⟩]
        [⟨1, 5, mkRat 1 2, "Moderate", ""⟩]).hasNode 5 = true ∧
    (build_risk_network
        [⟨1, "flood", "Physical", "Acute", 0, 0⟩,
         ⟨2, "carbon tax", "Transition", "Policy", 0, 0⟩]
        [⟨1, 2, mkRat 3 10, "Moderate", ""⟩,
         ⟨1, 2, mkRat 9 10, "Strong", ""⟩]).edges.length = 1 ∧
    getWeight (build_risk_network
        [⟨1, "flood", "Physical", "Acute", 0, 0⟩,
         ⟨2, "carbon tax", "Transition", "Policy", 0, 0⟩]
        [⟨1, 2, mkRat 3 10, "Moderate", ""⟩,
         ⟨1, 2, mkRat 9 10, "Strong", ""⟩]) 1 2 = some (mkRat 9 10) := by
  decide

/-- C5 (amended): `build_risk_network` performs no integrity validation.
Every interaction's endpoints end up as nodes of the returned graph, whether
or not they are risk ids (unknown ids are silently added), and when the same
unordered pair occurs more than once the final stored weight is the last
supplied interaction's score (earlier ones are silently overwritten). -/
theorem build_risk_network_no_validation (risks : List Risk)
    (interactions : List RiskInteraction) :
    (∀ it ∈ interactions,
      (build_risk_network risks interactions).hasNode it.risk1_id = true ∧
      (build_risk_network risks interactions).hasNode it.risk2_id = true) ∧
    (∀ pre it, interactions = pre ++ [it] →
      getWeight (build_risk_network risks interactions) it.risk1_id it.risk2_id
        = some it.interaction_score) := by
  constructor
  · intro it hit
    exact foldl_add_edge_endpoints interactions _ it hit
  · intro pre it heq
    subst heq
    unfold build_risk_network
    rw [List.foldl_append, List.foldl_cons, List.foldl_nil]
    exact getWeight_add_edge_self _ _ _ _ _

/-- Witness for C5 (amended) at the counterexample inputs: both endpoints of
the unknown-id interaction are nodes of the result, and the duplicate pair's
final weight is the later score. -/
theorem build_risk_network_no_validation_witness :
    ((build_risk_network [⟨1, "flood", "Physical", "Acute", 0, 0⟩]
        [⟨1, 5, mkRat 1 2, "Moderate", ""⟩]).hasNode 1 = true ∧
     (build_risk_network [⟨1, "flood", "Physical", "Acute", 0, 0⟩]
        [⟨1, 5, mkRat 1 2, "Moderate", ""⟩]).hasNode 5 = true) ∧
    getWeight (build_risk_network
        [⟨1, "flood", "Physical", "Acute", 0, 0⟩,
         ⟨2, "carbon tax", "Transition", "Policy", 0, 0⟩]
        [⟨1, 2, mkRat 3 10, "Moderate", ""⟩,
         ⟨1, 2, mkRat 9 10, "Strong", ""⟩]) 1 2 = some (mkRat 9 10) :=
  ⟨(build_risk_network_no_validation [⟨1, "flood", "Physical", "Acute", 0, 0⟩]
      [⟨1, 5, mkRat 1 2, "Moderate", ""⟩]).1 ⟨1, 5, mkRat 1 2, "Moderate", ""⟩
      (by decide),
   (build_risk_network_no_validation
      [⟨1, "flood", "Physical", "Acute", 0, 0⟩,
       ⟨2, "carbon tax", "Transition", "Policy", 0, 0⟩]
      [⟨1, 2, mkRat 3 10, "Moderate", ""⟩, ⟨1, 2, mkRat 9 10, "Strong", ""⟩]).2
      [⟨1, 2, mkRat 3 10, "Moderate", ""⟩] ⟨1, 2, mkRat 9 10, "Strong", ""⟩ rfl⟩

/-!
### Claim C4: resilience metrics on a disconnected graph

`analyze_network_resilience` (interaction_analysis.py lines 125-132) builds a
dict of four `networkx` metrics.  `nx.average_shortest_path_length` raises
`NetworkXError("Graph is not connected.")` on a disconnected graph, so the
whole call raises; the fallible library calls are embedded in `Except`.
-/

/-- `G.neighbors(n)`, in adjacency (edge-insertion) order. -/
def NXGraph.neighbors (G : NXGraph) (n : Int) : List Int :=
  G.edges.foldr
    (fun e acc => if e.u == n then e.v :: acc else if e.v == n then e.u :: acc else acc)
    []

/-- Is there an edge joining `{a, b}`? -/
def adjacentB (G : NXGraph) (a b : Int) : Bool :=
  G.edges.any (fun e => edgeMatches e a b)

/-- Number of edges among the neighbors of `n` (triangle count at `n`). -/
def trianglesAt (G : NXGraph) (n : Int) : ℕ :=
  (orderedPairs (G.neighbors n)).countP (fun p => adjacentB G p.1 p.2)

/-- The (unweighted) local clustering coefficient `2T / (d(d-1))`, `0` when
the degree is below 2 — the quantity `nx.average_clustering` averages. -/
def clusteringCoeff (G : NXGraph) (n : Int) : ℚ :=
  let d := (G.neighbors n).length
  if d < 2 then 0 else mkRat (2 * (trianglesAt G n : ℤ)) (d * (d - 1))

/-- `nx.average_clustering(G)`: the mean clustering coefficient; Python
raises a `ZeroDivisionError` on the empty graph. -/
def average_clustering (G : NXGraph) : Except String ℚ :=
  let n := G.nodeKeys.length
  if n = 0 then Except.error "ZeroDivisionError: division by zero"
  else Except.ok (fdiv (G.nodeKeys.foldl (fun a v => fadd a (clusteringCoeff G v)) 0)
    (mkRat (n : ℤ) 1))

/-- Sum of two optional distances (`none` = unreachable). -/
def optAdd : Option ℚ → Option ℚ → Option ℚ
  | some a, some b => some (fadd a b)
  | _, _ => none

/-- Minimum of two optional distances (`none` = unreachable). -/
def optMin : Option ℚ → Option ℚ → Option ℚ
  | none, y => y
  | some a, none => some a
  | some a, some b => if a ≤ b then some a else some b

/-- Direct-hop distances: `0` on the diagonal, the edge weight across an
edge, unreachable otherwise. -/
def dist0 (G : NXGraph) (u v : Int) : Option ℚ :=
  if u == v then some 0
  else (G.edges.find? (fun e => edgeMatches e u v)).map (·.weight)

/-- All-pairs weighted shortest-path distances by Floyd-Warshall relaxation
over the node list — the distances `nx.average_shortest_path_length`
averages (nonnegative weights). -/
def fwDist (G : NXGraph) : Int → Int → Option ℚ :=
  G.nodeKeys.foldl
    (fun d k => fun u v => optMin (d u v) (optAdd (d u k) (d k v)))
    (dist0 G)

/-- `nx.is_connected(G)`: every ordered pair of nodes is joined by a path. -/
def connectedB (G : NXGraph) : Bool :=
  G.nodeKeys.all (fun u => G.nodeKeys.all (fun v => (fwDist G u v).isSome))

/-- `nx.average_shortest_path_length(G, weight='weight')`: raises on the null
graph and on a disconnected graph, otherwise averages the pairwise distances
over the `n*(n-1)` ordered pairs. -/
def average_shortest_path_length (G : NXGraph) : Except String ℚ :=
  let n := G.nodeKeys.length
  if n = 0 then Except.error "Graph has no nodes."
  else if n = 1 then Except.ok 0
  else if connectedB G then
    Except.ok (fdiv
      (G.nodeKeys.foldl (fun a u =>
        G.nodeKeys.foldl (fun a v =>
          if u == v then a else fadd a ((fwDist G u v).getD 0)) a) 0)
      (mkRat ((n : ℤ) * ((n : ℤ) - 1)) 1))
  else Except.error "Graph is not connected."

/-- `nx.density(G)`: `2m / (n(n-1))`, `0` for graphs with at most one node. -/
def density (G : NXGraph) : ℚ :=
  let n := G.nodeKeys.length
  if n ≤ 1 then 0 else mkRat (2 * (G.edges.length : ℤ)) (n * (n - 1))

/-- The exact rational components of `nx.degree_assortativity_coefficient`:
the Pearson correlation of endpoint degrees over the directed version of the
edge list is `num / sqrt den2`; the square root is irrational in general, so
the embedding keeps the components. -/
structure AssortStat where
  num : ℚ
  den2 : ℚ
deriving Repr, DecidableEq

/-- `nx.degree_assortativity_coefficient(G)`, as its exact components. -/
def degree_assortativity_coefficient (G : NXGraph) : AssortStat :=
  let pairs : List (ℤ × ℤ) := G.edges.foldr
    (fun e acc =>
      (((G.neighbors e.u).length : ℤ), ((G.neighbors e.v).length : ℤ)) ::
      (((G.neighbors e.v).length : ℤ), ((G.neighbors e.u).length : ℤ)) :: acc) []
  let m : ℤ := pairs.length
  let sx := pairs.foldl (fun a p => a + p.1) 0
  let sy := pairs.foldl (fun a p => a + p.2) 0
  let sxy := pairs.foldl (fun a p => a + p.1 * p.2) 0
  let sxx := pairs.foldl (fun a p => a + p.1 * p.1) 0
  let syy := pairs.foldl (fun a p => a + p.2 * p.2) 0
  ⟨mkRat (m * sxy - sx * sy) 1, mkRat ((m * sxx - sx * sx) * (m * syy - sy * sy)) 1⟩

/-- The metrics dict of `analyze_network_resilience` /
`assess_network_resilience`. -/
structure ResilienceMetrics where
  average_clustering : ℚ
  average_shortest_path_length : ℚ
  graph_density : ℚ
  assortativity : AssortStat
deriving Repr, DecidableEq

/-- `analyze_network_resilience` (interaction_analysis.py lines 125-132): the
dict entries are evaluated in order; an exception from any metric propagates
out of the call, so the result is `Except`. -/
def analyze_network_resilience (G : NXGraph) : Except String ResilienceMetrics := do
  let ac ← average_clustering G
  let aspl ← average_shortest_path_length G
  Except.ok ⟨ac, aspl, density G, degree_assortativity_coefficient G⟩

instance exceptDecEq {ε α : Type} [DecidableEq ε] [DecidableEq α] :
    DecidableEq (Except ε α)
  | .ok x, .ok y =>
    if h : x = y then .isTrue (by rw [h]) else .isFalse (fun hc => h (by cases hc; rfl))
  | .error x, .error y =>
    if h : x = y then .isTrue (by rw [h]) else .isFalse (fun hc => h (by cases hc; rfl))
  | .ok _, .error _ => .isFalse (fun hc => by cases hc)
  | .error _, .ok _ => .isFalse (fun hc => by cases hc)

/-- C4 (code behavior at the claim's failing input): on the disconnected
4-node graph from the repository's own test
(`test_network_analysis_edge_cases`: edges 1-2 and 3-4 only), the resilience
call propagates the `NetworkXError` of `nx.average_shortest_path_length`
instead of reporting an undefined/infinite value with the other metrics — the
test asserts `np.isinf(...)` and instead the code raises. -/
theorem analyze_network_resilience_disconnected_raises :
    analyze_network_resilience (build_risk_network
      [⟨1, "Risk 1", "Physical", "", mkRat 1 2, mkRat 1 2⟩,
       ⟨2, "Risk 2", "Physical", "", mkRat 1 2, mkRat 1 2⟩,
       ⟨3, "Risk 3", "Physical", "", mkRat 1 2, mkRat 1 2⟩,
       ⟨4, "Risk 4", "Physical", "", mkRat 1 2, mkRat 1 2⟩]
      [⟨1, 2, mkRat 1 2, "Moderate", ""⟩,
       ⟨3, 4, mkRat 1 2, "Moderate", ""⟩])
      = Except.error "Graph is not connected." := by
  decide

/-!
### The cascade simulator

`analyze_risk_cascades` (interaction_analysis.py lines 90-110).  The Python
dict `cascade_progression` is embedded as an insertion-ordered association
list from node to activation series.  `len(next(iter(...)))` reads the first
entry's series length (Python would raise `StopIteration` on an empty dict,
which cannot happen for a non-empty seed set).
-/

/-- `G[a][b]['weight']` where the edge is known to exist (the default is
unreachable when `b` comes from `G.neighbors(a)`). -/
def weightD (G : NXGraph) (a b : Int) : ℚ :=
  ((G.edges.find? (fun e => edgeMatches e a b)).map (·.weight)).getD 0

/-- `cascade_progression.get(neighbor, [0])[-1]`. -/
def lastVal (prog : List (Int × List ℚ)) (v : Int) : ℚ :=
  ((prog.find? (·.1 == v)).map (fun p => p.2.getLastD 0)).getD 0

/-- `node in cascade_progression`. -/
def tracked (prog : List (Int × List ℚ)) (v : Int) : Bool :=
  prog.any (·.1 == v)

/-- `sum(cascade_progression.get(neighbor, [0])[-1] * G[node][neighbor]['weight']
for neighbor in G.neighbors(node))`. -/
def neighbor_influence (G : NXGraph) (prog : List (Int × List ℚ)) (node : Int) : ℚ :=
  (G.neighbors node).foldl (fun acc nbr => fadd acc (fmul (lastVal prog nbr) (weightD G node nbr))) 0

/-- The `new_activations` dict of one step: untracked nodes whose neighbor
influence strictly exceeds the threshold, in `G.nodes()` order. -/
def new_activations (G : NXGraph) (prog : List (Int × List ℚ)) (threshold : ℚ) :
    List (Int × ℚ) :=
  G.nodeKeys.filterMap (fun node =>
    if tracked prog node then none
    else if threshold < neighbor_influence G prog node then
      some (node, neighbor_influence G prog node)
    else none)

/-- `len(next(iter(cascade_progression.values()))) - 1`. -/
def backfillLen (prog : List (Int × List ℚ)) : ℕ :=
  ((prog.head?.map (fun p => p.2.length)).getD 0) - 1

/-- `cascade_progression[node] = [0.0] * (len(next(iter(...))) - 1) + [activation]`
for each newly activated node, in dict order. -/
def applyActivations (prog : List (Int × List ℚ)) (na : List (Int × ℚ)) :
    List (Int × List ℚ) :=
  na.foldl
    (fun p q => p ++ [(q.1, List.replicate (backfillLen p) 0 ++ [q.2])])
    prog

/-- `for progression in cascade_progression.values(): progression.append(progression[-1])`. -/
def appendLast (prog : List (Int × List ℚ)) : List (Int × List ℚ) :=
  prog.map (fun p => (p.1, p.2 ++ [p.2.getLastD 0]))

/-- The `for _ in range(max_steps)` loop: break when a step yields no new
activations, otherwise backfill the new nodes and append each series' last
value. -/
def cascadeLoop (G : NXGraph) (threshold : ℚ) :
    ℕ → List (Int × List ℚ) → List (Int × List ℚ)
  | 0, prog => prog
  | steps + 1, prog =>
    if (new_activations G prog threshold).isEmpty then prog
    else cascadeLoop G threshold steps
      (appendLast (applyActivations prog (new_activations G prog threshold)))

/-- The number of loop iterations that produced new activations (parallel to
`cascadeLoop`). -/
def cascadeSteps (G : NXGraph) (threshold : ℚ) :
    ℕ → List (Int × List ℚ) → ℕ
  | 0, _ => 0
  | steps + 1, prog =>
    if (new_activations G prog threshold).isEmpty then 0
    else cascadeSteps G threshold steps
      (appendLast (applyActivations prog (new_activations G prog threshold))) + 1

/-- `{risk: [1.0] for risk in initial_risks}`: first occurrence fixes the
position, the value is `[1.0]` either way. -/
def initProg (initial_risks : List Int) : List (Int × List ℚ) :=
  initial_risks.foldl
    (fun acc r => if acc.any (·.1 == r) then acc else acc ++ [(r, [1])]) []

/-- `analyze_risk_cascades` (interaction_analysis.py lines 90-110). -/
def analyze_risk_cascades (G : NXGraph) (initial_risks : List Int)
    (threshold : ℚ) (max_steps : ℕ) : List (Int × List ℚ) :=
  cascadeLoop G threshold max_steps (initProg initial_risks)

/-- The number of activation-producing steps of a full run. -/
def simulatedActivationSteps (G : NXGraph) (initial_risks : List Int)
    (threshold : ℚ) (max_steps : ℕ) : ℕ :=
  cascadeSteps G threshold max_steps (initProg initial_risks)

/-!
### Claim C1: halting and series lengths
-/

theorem applyActivations_append (na : List (Int × ℚ)) :
    ∀ prog : List (Int × List ℚ), ∃ tail, applyActivations prog na = prog ++ tail := by
  induction na with
  | nil => exact fun prog => ⟨[], by simp [applyActivations]⟩
  | cons q rest ih =>
    intro prog
    obtain ⟨tail, htail⟩ := ih (prog ++ [(q.1, List.replicate (backfillLen prog) 0 ++ [q.2])])
    refine ⟨(q.1, List.replicate (backfillLen prog) 0 ++ [q.2]) :: tail, ?_⟩
    show applyActivations (prog ++ [(q.1, List.replicate (backfillLen prog) 0 ++ [q.2])]) rest = _
    rw [htail, List.append_assoc]
    rfl

theorem applyActivations_ne_nil (prog : List (Int × List ℚ)) (na : List (Int × ℚ))
    (h : prog ≠ []) : applyActivations prog na ≠ [] := by
  obtain ⟨tail, htail⟩ := applyActivations_append na prog
  rw [htail]
  exact fun hc => h (List.append_eq_nil.mp hc).1

theorem backfillLen_of_uniform (prog : List (Int × List ℚ)) (L : ℕ)
    (hne : prog ≠ []) (hlen : ∀ p ∈ prog, p.2.length = L) :
    backfillLen prog = L - 1 := by
  rcases prog with _ | ⟨h, t⟩
  · exact absurd rfl hne
  · show ((some (h.2.length)).getD 0) - 1 = L - 1
    rw [hlen h (List.mem_cons_self h t)]
    rfl

theorem applyActivations_lengths (na : List (Int × ℚ)) :
    ∀ (prog : List (Int × List ℚ)) (L : ℕ), 1 ≤ L → prog ≠ [] →
    (∀ p ∈ prog, p.2.length = L) →
    ∀ p ∈ applyActivations prog na, p.2.length = L := by
  induction na with
  | nil => intro prog L _ _ hlen; exact hlen
  | cons q rest ih =>
    intro prog L hL hne hlen
    show ∀ p ∈ applyActivations
      (prog ++ [(q.1, List.replicate (backfillLen prog) 0 ++ [q.2])]) rest, p.2.length = L
    apply ih _ L hL (by simp)
    intro p hp
    rcases List.mem_append.mp hp with hold | hnew
    · exact hlen p hold
    · rw [List.mem_singleton.mp hnew]
      show (List.replicate (backfillLen prog) 0 ++ [q.2]).length = L
      rw [List.length_append, List.length_replicate,
        backfillLen_of_uniform prog L hne hlen]
      show L - 1 + 1 = L
      omega

theorem appendLast_lengths (prog : List (Int × List ℚ)) (L : ℕ)
    (hlen : ∀ p ∈ prog, p.2.length = L) :
    ∀ p ∈ appendLast prog, p.2.length = L + 1 := by
  intro p hp
  obtain ⟨q, hq, rfl⟩ := List.mem_map.mp hp
  show (q.2 ++ [q.2.getLastD 0]).length = L + 1
  rw [List.length_append, hlen q hq]
  rfl

theorem appendLast_ne_nil (prog : List (Int × List ℚ)) (h : prog ≠ []) :
    appendLast prog ≠ [] := by
  intro hc
  exact h (List.map_eq_nil.mp hc)

theorem cascadeLoop_spec (G : NXGraph) (θ : ℚ) :
    ∀ (fuel : ℕ) (prog : List (Int × List ℚ)) (L : ℕ), 1 ≤ L → prog ≠ [] →
    (∀ p ∈ prog, p.2.length = L) →
    cascadeSteps G θ fuel prog ≤ fuel ∧
    (∀ p ∈ cascadeLoop G θ fuel prog, p.2.length = cascadeSteps G θ fuel prog + L) ∧
    (cascadeSteps G θ fuel prog < fuel →
      new_activations G (cascadeLoop G θ fuel prog) θ = []) := by
  intro fuel
  induction fuel with
  | zero =>
    intro prog L hL hne hlen
    refine ⟨le_refl 0, ?_, fun h => absurd h (lt_irrefl 0)⟩
    intro p hp
    rw [show cascadeSteps G θ 0 prog = 0 from rfl]
    rw [show cascadeLoop G θ 0 prog = prog from rfl] at hp
    rw [hlen p hp]
    omega
  | succ fuel ih =>
    intro prog L hL hne hlen
    by_cases hna : ((new_activations G prog θ).isEmpty) = true
    · have hLoop : cascadeLoop G θ (fuel + 1) prog = prog := by
        rw [cascadeLoop, if_pos hna]
      have hSteps : cascadeSteps G θ (fuel + 1) prog = 0 := by
        rw [cascadeSteps, if_pos hna]
      refine ⟨by omega, ?_, ?_⟩
      · intro p hp
        rw [hSteps]
        rw [hLoop] at hp
        rw [hlen p hp]
        omega
      · intro _
        rw [hLoop]
        exact List.isEmpty_iff.mp hna
    · have hLoop : cascadeLoop G θ (fuel + 1) prog
          = cascadeLoop G θ fuel
            (appendLast (applyActivations prog (new_activations G prog θ))) := by
        rw [cascadeLoop, if_neg hna]
      have hSteps : cascadeSteps G θ (fuel + 1) prog
          = cascadeSteps G θ fuel
            (appendLast (applyActivations prog (new_activations G prog θ))) + 1 := by
        rw [cascadeSteps, if_neg hna]
      have hne' : appendLast (applyActivations prog (new_activations G prog θ)) ≠ [] :=
        appendLast_ne_nil _ (applyActivations_ne_nil prog _ hne)
      have hlen' : ∀ p ∈ appendLast (applyActivations prog (new_activations G prog θ)),
          p.2.length = L + 1 :=
        appendLast_lengths _ L (applyActivations_lengths _ prog L hL hne hlen)
      obtain ⟨ih1, ih2, ih3⟩ := ih
        (appendLast (applyActivations prog (new_activations G prog θ)))
        (L + 1) (by omega) hne' hlen'
      refine ⟨by omega, ?_, ?_⟩
      · intro p hp
        rw [hLoop] at hp
        rw [hSteps]
        have := ih2 p hp
        omega
      · intro hlt
        rw [hSteps] at hlt
        rw [hLoop]
        exact ih3 (by omega)

theorem foldl_initStep_ne_nil (xs : List Int) :
    ∀ acc : List (Int × List ℚ), acc ≠ [] →
    xs.foldl (fun acc r => if acc.any (·.1 == r) then acc else acc ++ [(r, [1])]) acc
      ≠ [] := by
  induction xs with
  | nil => exact fun acc h => h
  | cons x rest ih =>
    intro acc h
    rw [List.foldl_cons]
    by_cases hx : (acc.any (·.1 == x)) = true
    · rw [if_pos hx]
      exact ih acc h
    · rw [if_neg hx]
      exact ih _ (by simp)

theorem initProg_ne_nil (l : List Int) (h : l ≠ []) : initProg l ≠ [] := by
  rcases l with _ | ⟨x, xs⟩
  · exact absurd rfl h
  · show List.foldl _ (if ([] : List (Int × List ℚ)).any (·.1 == x) then []
      else [] ++ [(x, [1])]) xs ≠ []
    exact foldl_initStep_ne_nil xs _ (by simp)

theorem foldl_initStep_val (xs : List Int) :
    ∀ acc : List (Int × List ℚ), (∀ p ∈ acc, p.2 = [1]) →
    ∀ p ∈ xs.foldl (fun acc r => if acc.any (·.1 == r) then acc else acc ++ [(r, [1])]) acc,
      p.2 = [1] := by
  induction xs with
  | nil => exact fun acc h => h
  | cons x rest ih =>
    intro acc h
    rw [List.foldl_cons]
    by_cases hx : (acc.any (·.1 == x)) = true
    · rw [if_pos hx]
      exact ih acc h
    · rw [if_neg hx]
      apply ih
      intro p hp
      rcases List.mem_append.mp hp with hold | hnew
      · exact h p hold
      · rw [List.mem_singleton.mp hnew]

theorem initProg_val (l : List Int) : ∀ p ∈ initProg l, p.2 = [1] :=
  foldl_initStep_val l [] (fun p hp => absurd hp (List.not_mem_nil p))

/-- C1 (amended): for every graph, non-empty seed list, threshold and step
budget, the cascade performs at most `max_steps` activation-producing steps,
is stable (a further step would activate nothing) whenever it halted before
exhausting the budget, and every node's returned series — seed or backfilled
latecomer alike — has the same length, namely one plus the number of
activation-producing steps.  Lengths are uniform across nodes, not
asymmetric: the backfill pads latecomers to the common length. -/
theorem analyze_risk_cascades_halting (G : NXGraph) (initial_risks : List Int)
    (threshold : ℚ) (max_steps : ℕ) (hne : initial_risks ≠ []) :
    simulatedActivationSteps G initial_risks threshold max_steps ≤ max_steps ∧
    (∀ p ∈ analyze_risk_cascades G initial_risks threshold max_steps,
      p.2.length = simulatedActivationSteps G initial_risks threshold max_steps + 1) ∧
    (simulatedActivationSteps G initial_risks threshold max_steps < max_steps →
      new_activations G (analyze_risk_cascades G initial_risks threshold max_steps)
        threshold = []) := by
  have h := cascadeLoop_spec G threshold max_steps (initProg initial_risks) 1
    le_rfl (initProg_ne_nil _ hne)
    (fun p hp => by rw [initProg_val _ p hp]; rfl)
  exact h

/-- The 3-chain graph 1-2-3 with strong (0.9) edges: seeding node 1 with
threshold 0.5 activates 2, then 3 (a backfilled latecomer). -/
def cascadeChainGraph : NXGraph :=
  ⟨[(1, none), (2, none), (3, none)],
   [⟨1, 2, mkRat 9 10, "Strong"⟩, ⟨2, 3, mkRat 9 10, "Strong"⟩]⟩

/-- C1 counterexample: the claim's "lengths asymmetric across nodes" is false.
On the 3-chain run node 3 is a backfilled latecomer (its series starts with
the backfilled 0.0), yet every node's series has the same length 3 — no two
nodes have series of different lengths. -/
theorem analyze_risk_cascades_lengths_not_asymmetric :
    analyze_risk_cascades cascadeChainGraph [1] (mkRat 1 2) 10
      = [(1, [1, 1, 1]), (2, [mkRat 9 10, mkRat 9 10, mkRat 9 10]),
         (3, [0, mkRat 81 100, mkRat 81 100])] ∧
    (∃ p ∈ analyze_risk_cascades cascadeChainGraph [1] (mkRat 1 2) 10,
      p.1 = 3 ∧ p.2.headD 1 = 0) ∧
    ¬ (∃ p ∈ analyze_risk_cascades cascadeChainGraph [1] (mkRat 1 2) 10,
       ∃ q ∈ analyze_risk_cascades cascadeChainGraph [1] (mkRat 1 2) 10,
         p.2.length ≠ q.2.length) := by
  refine ⟨by decide, by decide, by decide⟩

/-- Witness for C1 (amended) on the 3-chain run. -/
theorem analyze_risk_cascades_halting_witness :
    simulatedActivationSteps cascadeChainGraph [1] (mkRat 1 2) 10 ≤ 10 ∧
    (∀ p ∈ analyze_risk_cascades cascadeChainGraph [1] (mkRat 1 2) 10,
      p.2.length = simulatedActivationSteps cascadeChainGraph [1] (mkRat 1 2) 10 + 1) ∧
    (simulatedActivationSteps cascadeChainGraph [1] (mkRat 1 2) 10 < 10 →
      new_activations cascadeChainGraph
        (analyze_risk_cascades cascadeChainGraph [1] (mkRat 1 2) 10) (mkRat 1 2) = []) :=
  analyze_risk_cascades_halting cascadeChainGraph [1] (mkRat 1 2) 10 (by decide)

/-!
### Claim C8: cascade state invariant
-/

/-- The shape every activation series maintains: a block of backfilled zeros
followed by a constant block holding the activation value; seed series are
constant 1 from step 0. -/
def seriesShape (initial : List Int) (p : Int × List ℚ) : Prop :=
  ∃ k m v, p.2 = List.replicate k 0 ++ List.replicate m v ∧ 1 ≤ m ∧
    (p.1 ∈ initial → k = 0 ∧ v = 1)

theorem new_activations_not_tracked (G : NXGraph) (prog : List (Int × List ℚ))
    (θ : ℚ) (q : Int × ℚ) (h : q ∈ new_activations G prog θ) :
    tracked prog q.1 = false := by
  obtain ⟨node, _, hf⟩ := List.mem_filterMap.mp h
  by_cases ht : tracked prog node = true
  · rw [if_pos ht] at hf
    exact absurd hf (by simp)
  · rw [if_neg ht] at hf
    by_cases hi : θ < neighbor_influence G prog node
    · rw [if_pos hi] at hf
      have hq : q.1 = node := by rw [← Option.some.inj hf]
      rw [hq]
      exact Bool.eq_false_iff.mpr ht
    · rw [if_neg hi] at hf
      exact absurd hf (by simp)

theorem tracked_appendLast (prog : List (Int × List ℚ)) (v : Int) :
    tracked (appendLast prog) v = tracked prog v := by
  show ((prog.map (fun p => (p.1, p.2 ++ [p.2.getLastD 0]))).any (·.1 == v))
    = prog.any (·.1 == v)
  rw [list_any_map]
  rfl

theorem tracked_applyActivations_mono (prog : List (Int × List ℚ))
    (na : List (Int × ℚ)) (v : Int) (h : tracked prog v = true) :
    tracked (applyActivations prog na) v = true := by
  obtain ⟨tail, htail⟩ := applyActivations_append na prog
  show ((applyActivations prog na).any (·.1 == v)) = true
  rw [htail, List.any_append]
  have h' : (prog.any (·.1 == v)) = true := h
  rw [h']
  rfl

theorem shape_append_last (initial : List Int) (q : Int × List ℚ)
    (h : seriesShape initial q) :
    seriesShape initial (q.1, q.2 ++ [q.2.getLastD 0]) := by
  obtain ⟨k, m, v, heq, hm, hseed⟩ := h
  have hlast : q.2.getLastD 0 = v := by
    rcases m with _ | m'
    · omega
    · have hconcat : (List.replicate k (0 : ℚ) ++ List.replicate (m' + 1) v).getLast?
          = some v := by
        rw [List.replicate_succ' m' v, ← List.append_assoc, List.getLast?_concat]
      rw [heq, List.getLastD_eq_getLast?, hconcat]
      rfl
  refine ⟨k, m + 1, v, ?_, by omega, hseed⟩
  show q.2 ++ [q.2.getLastD 0] = _
  rw [hlast, heq, List.append_assoc, ← List.replicate_succ' m v]

theorem applyActivations_shape (initial : List Int) (na : List (Int × ℚ)) :
    ∀ prog : List (Int × List ℚ), (∀ q ∈ na, q.1 ∉ initial) →
    (∀ p ∈ prog, seriesShape initial p) →
    ∀ p ∈ applyActivations prog na, seriesShape initial p := by
  induction na with
  | nil => exact fun prog _ hsh => hsh
  | cons q rest ih =>
    intro prog hni hsh
    show ∀ p ∈ applyActivations
      (prog ++ [(q.1, List.replicate (backfillLen prog) 0 ++ [q.2])]) rest,
      seriesShape initial p
    apply ih _ (fun q' hq' => hni q' (List.mem_cons_of_mem q hq'))
    intro p hp
    rcases List.mem_append.mp hp with hold | hnew
    · exact hsh p hold
    · rw [List.mem_singleton.mp hnew]
      exact ⟨backfillLen prog, 1, q.2, rfl, le_refl 1,
        fun hmem => absurd hmem (hni q (List.mem_cons_self q rest))⟩

theorem cascadeLoop_shape (G : NXGraph) (θ : ℚ) (initial : List Int) :
    ∀ (fuel : ℕ) (prog : List (Int × List ℚ)),
    (∀ r ∈ initial, tracked prog r = true) →
    (∀ p ∈ prog, seriesShape initial p) →
    ∀ p ∈ cascadeLoop G θ fuel prog, seriesShape initial p := by
  intro fuel
  induction fuel with
  | zero => exact fun prog _ hsh => hsh
  | succ fuel ih =>
    intro prog htr hsh
    by_cases hna : ((new_activations G prog θ).isEmpty) = true
    · rw [cascadeLoop, if_pos hna]
      exact hsh
    · rw [cascadeLoop, if_neg hna]
      have hni : ∀ q ∈ new_activations G prog θ, q.1 ∉ initial := by
        intro q hq hmem
        have h1 := new_activations_not_tracked G prog θ q hq
        have h2 := htr q.1 hmem
        rw [h1] at h2
        exact Bool.false_ne_true h2
      apply ih
      · intro r hr
        rw [tracked_appendLast]
        exact tracked_applyActivations_mono prog _ r (htr r hr)
      · intro p hp
        obtain ⟨p', hp', rfl⟩ := List.mem_map.mp hp
        exact shape_append_last initial p'
          (applyActivations_shape initial _ prog hni hsh p' hp')

theorem foldl_initStep_tracked (r : Int) (xs : List Int) :
    ∀ acc : List (Int × List ℚ), (r ∈ xs ∨ (acc.any (·.1 == r)) = true) →
    ((xs.foldl (fun acc x => if acc.any (·.1 == x) then acc else acc ++ [(x, [1])])
      acc).any (·.1 == r)) = true := by
  induction xs with
  | nil =>
    intro acc h
    rcases h with h | h
    · exact absurd h (List.not_mem_nil r)
    · exact h
  | cons x rest ih =>
    intro acc h
    rw [List.foldl_cons]
    by_cases hx : (acc.any (·.1 == x)) = true
    · rw [if_pos hx]
      apply ih
      rcases h with h | h
      · rcases List.mem_cons.mp h with rfl | hr
        · exact Or.inr hx
        · exact Or.inl hr
      · exact Or.inr h
    · rw [if_neg hx]
      apply ih
      rcases h with h | h
      · rcases List.mem_cons.mp h with rfl | hr
        · refine Or.inr ?_
          rw [List.any_append]
          simp
        · exact Or.inl hr
      · refine Or.inr ?_
        rw [List.any_append, h]
        rfl

theorem initProg_tracked (l : List Int) (r : Int) (h : r ∈ l) :
    tracked (initProg l) r = true :=
  foldl_initStep_tracked r l [] (Or.inl h)

/-- C8: in the returned cascade state, every seed's series has value 1.0 at
step 0, and every tracked node's series is a block of backfilled zeros
followed by a constant block: once a node's activation value is computed it
is held unchanged for every later step (never re-decayed), and seeds hold 1.0
from step 0 on. -/
theorem analyze_risk_cascades_state_invariant (G : NXGraph)
    (initial_risks : List Int) (threshold : ℚ) (max_steps : ℕ)
    (hne : initial_risks ≠ []) :
    ∀ p ∈ analyze_risk_cascades G initial_risks threshold max_steps,
      (p.1 ∈ initial_risks → p.2.headD 0 = 1) ∧
      ∃ k v, p.2 = List.replicate k 0 ++ List.replicate (p.2.length - k) v ∧
        k < p.2.length ∧ (p.1 ∈ initial_risks → k = 0 ∧ v = 1) := by
  intro p hp
  have hsh := cascadeLoop_shape G threshold initial_risks max_steps
    (initProg initial_risks)
    (fun r hr => initProg_tracked initial_risks r hr)
    (fun q hq => ⟨0, 1, 1, by rw [initProg_val initial_risks q hq]; rfl, le_refl 1,
      fun _ => ⟨rfl, rfl⟩⟩)
    p hp
  obtain ⟨k, m, v, heq, hm, hseed⟩ := hsh
  have hlen : p.2.length = k + m := by
    rw [heq, List.length_append, List.length_replicate, List.length_replicate]
  constructor
  · intro hmem
    obtain ⟨hk, hv⟩ := hseed hmem
    subst hk hv
    rw [heq]
    rcases m with _ | m'
    · omega
    · rfl
  · refine ⟨k, v, ?_, by omega, hseed⟩
    rw [heq]
    have hL2 : (List.replicate k (0 : ℚ) ++ List.replicate m v).length = k + m := by
      rw [List.length_append, List.length_replicate, List.length_replicate]
    congr 1
    congr 1
    omega

/-- Witness for C8 at the 3-chain run, on the seed node's entry. -/
theorem analyze_risk_cascades_state_invariant_witness :
    ((1 : Int), ([1, 1, 1] : List ℚ))
      ∈ analyze_risk_cascades cascadeChainGraph [1] (mkRat 1 2) 10 ∧
    ((((1 : Int), ([1, 1, 1] : List ℚ)).1 ∈ [(1 : Int)] →
        (((1 : Int), ([1, 1, 1] : List ℚ)).2).headD 0 = 1) ∧
      ∃ k v, (((1 : Int), ([1, 1, 1] : List ℚ)).2)
          = List.replicate k 0
            ++ List.replicate ((((1 : Int), ([1, 1, 1] : List ℚ)).2).length - k) v ∧
        k < (((1 : Int), ([1, 1, 1] : List ℚ)).2).length ∧
        ((((1 : Int), ([1, 1, 1] : List ℚ)).1 ∈ [(1 : Int)]) → k = 0 ∧ v = 1)) :=
  ⟨by decide,
   analyze_risk_cascades_state_invariant cascadeChainGraph [1] (mkRat 1 2) 10
     (by decide) ((1 : Int), ([1, 1, 1] : List ℚ)) (by decide)⟩

/-!
### Claim C9: the feedback-loop finder

`identify_risk_feedback_loops` filters `nx.simple_cycles(G)` down to cycles of
length > 2.  `nx.simple_cycles` on an undirected graph yields every self-loop
as a singleton and every simple cycle of length ≥ 3 exactly once; the
embedding enumerates them by DFS from every start node, so each cycle may
appear in several rotations/directions — the soundness property proved below
is invariant under rotation and direction, so it covers the library's
canonical enumeration. -/

/-- DFS enumeration of the simple cycles through `start`: `path` is the
current simple path stored reversed (`[current, ..., start]`), `cands` the
candidates still to try from `current`, and `fuel` a step budget (generous
enough to never bind). -/
def cyclesDFS (G : NXGraph) (start : Int) :
    ℕ → List Int → List Int → List (List Int)
  | 0, _, _ => []
  | fuel + 1, path, cands =>
    match cands with
    | [] => []
    | w :: ws =>
      (match path with
       | [] => []
       | current :: _ =>
         (if adjacentB G current w = true ∧ w = start ∧ 3 ≤ path.length
          then [path.reverse] else []) ++
         (if adjacentB G current w = true ∧ ¬ w ∈ path
          then cyclesDFS G start fuel (w :: path) G.nodeKeys else []))
      ++ cyclesDFS G start fuel path ws

/-- The cycles `nx.simple_cycles(G)` yields on an undirected graph:
self-loops as singletons, plus every simple cycle of length ≥ 3 (here in all
rotations/directions). -/
def simple_cycles (G : NXGraph) : List (List Int) :=
  (G.nodeKeys.filter (fun v => adjacentB G v v)).map (fun v => [v])
  ++ G.nodeKeys.foldr (fun start acc =>
      cyclesDFS G start ((2 * G.nodeKeys.length + 2) ^ (G.nodeKeys.length + 1))
        [start] G.nodeKeys ++ acc) []

/-- `identify_risk_feedback_loops` (interaction_analysis.py lines 121-123). -/
def identify_risk_feedback_loops (G : NXGraph) : List (List Int) :=
  (simple_cycles G).filter (fun loop => 2 < loop.length)

theorem cyclesDFS_sound (G : NXGraph) (start : Int) :
    ∀ (fuel : ℕ) (path cands : List Int) (c : List Int),
    path ≠ [] → path.getLast? = some start → path.Nodup →
    List.Chain' (fun a b => adjacentB G b a = true) path →
    c ∈ cyclesDFS G start fuel path cands →
    c.Nodup ∧ 3 ≤ c.length ∧
    List.Chain' (fun a b => adjacentB G a b = true) c ∧
    adjacentB G (c.getLastD 0) (c.headD 0) = true := by
  intro fuel
  induction fuel with
  | zero =>
    intro path cands c _ _ _ _ h
    exact absurd h (List.not_mem_nil c)
  | succ fuel ih =>
    intro path cands c hne hlast hnd hch hc
    rcases cands with _ | ⟨w, ws⟩
    · exact absurd hc (List.not_mem_nil c)
    · rcases path with _ | ⟨current, rest⟩
      · exact absurd rfl hne
      · rw [cyclesDFS] at hc
        rcases List.mem_append.mp hc with h1 | hlat
        · rcases List.mem_append.mp h1 with hemit | hdeep
          · by_cases hcond : adjacentB G current w = true ∧ w = start ∧
                3 ≤ (current :: rest).length
            · rw [if_pos hcond] at hemit
              have hc' : c = (current :: rest).reverse := List.mem_singleton.mp hemit
              subst hc'
              refine ⟨List.nodup_reverse.mpr hnd, by simpa using hcond.2.2, ?_, ?_⟩
              · exact (List.chain'_reverse).mpr hch
              · rw [List.getLastD_eq_getLast?, List.getLast?_reverse,
                  List.headD_eq_head?, List.head?_reverse, hlast]
                show adjacentB G current start = true
                rw [← hcond.2.1]
                exact hcond.1
            · rw [if_neg hcond] at hemit
              exact absurd hemit (List.not_mem_nil c)
          · by_cases hcond : adjacentB G current w = true ∧ ¬ w ∈ current :: rest
            · rw [if_pos hcond] at hdeep
              apply ih (w :: current :: rest) G.nodeKeys c (by simp) ?_ ?_ ?_ hdeep
              · rw [List.getLast?_cons_cons]
                exact hlast
              · exact List.nodup_cons.mpr ⟨hcond.2, hnd⟩
              · exact List.chain'_cons.mpr ⟨hcond.1, hch⟩
            · rw [if_neg hcond] at hdeep
              exact absurd hdeep (List.not_mem_nil c)
        · exact ih (current :: rest) ws c hne hlast hnd hch hlat

theorem mem_foldr_cycles (G : NXGraph) (f : Int → List (List Int)) :
    ∀ (l : List Int) (c : List Int),
    c ∈ l.foldr (fun start acc => f start ++ acc) [] → ∃ s ∈ l, c ∈ f s := by
  intro l
  induction l with
  | nil => intro c h; exact absurd h (List.not_mem_nil c)
  | cons x xs ih =>
    intro c h
    rcases List.mem_append.mp h with hx | hxs
    · exact ⟨x, List.mem_cons_self x xs, hx⟩
    · obtain ⟨s, hs, hcs⟩ := ih c hxs
      exact ⟨s, List.mem_cons_of_mem x hs, hcs⟩

/-- C9: every returned feedback loop is a simple cycle of length strictly
greater than 2 whose consecutive nodes — including the wraparound pair from
last to first — are joined by edges of the graph. -/
theorem identify_risk_feedback_loops_sound (G : NXGraph) :
    ∀ c ∈ identify_risk_feedback_loops G,
      2 < c.length ∧ c.Nodup ∧
      List.Chain' (fun a b => adjacentB G a b = true) c ∧
      adjacentB G (c.getLastD 0) (c.headD 0) = true := by
  intro c hc
  obtain ⟨hmem, hlen⟩ := List.mem_filter.mp hc
  have hlen' : 2 < c.length := by exact_mod_cast of_decide_eq_true hlen
  rcases List.mem_append.mp hmem with hself | hdfs
  · obtain ⟨v, _, rfl⟩ := List.mem_map.mp hself
    simp at hlen'
  · obtain ⟨s, _, hcs⟩ := mem_foldr_cycles G _ G.nodeKeys c hdfs
    have h := cyclesDFS_sound G s _ [s] G.nodeKeys c (by simp) rfl
      (List.nodup_singleton s) (List.chain'_singleton s) hcs
    exact ⟨hlen', h.1, h.2.2.1, h.2.2.2⟩

/-- The triangle 1-2-3. -/
def triangleGraph : NXGraph :=
  ⟨[(1, none), (2, none), (3, none)],
   [⟨1, 2, mkRat 1 2, "Moderate"⟩, ⟨2, 3, mkRat 1 2, "Moderate"⟩,
    ⟨1, 3, mkRat 1 2, "Moderate"⟩]⟩

/-- Witness for C9: the triangle's cycle [1, 2, 3] is returned and satisfies
the soundness properties. -/
theorem identify_risk_feedback_loops_sound_witness :
    [1, 2, 3] ∈ identify_risk_feedback_loops triangleGraph ∧
    (2 < ([1, 2, 3] : List Int).length ∧ ([1, 2, 3] : List Int).Nodup ∧
      List.Chain' (fun a b => adjacentB triangleGraph a b = true) [1, 2, 3] ∧
      adjacentB triangleGraph (([1, 2, 3] : List Int).getLastD 0)
        (([1, 2, 3] : List Int).headD 0) = true) :=
  ⟨by decide, identify_risk_feedback_loops_sound triangleGraph [1, 2, 3] (by decide)⟩

/-!
### Claim C10: the duplicated routines of `systemic_risk_analysis.py`

`systemic_risk_analysis.py` lines 65-89 contain byte-for-byte copies of
`analyze_risk_cascades` and `identify_risk_feedback_loops` (modulo the
parameter name `risk_network`); they are embedded separately, line for line,
in their own namespace. -/

namespace SystemicRiskAnalysis

/-- `cascade_progression.get(neighbor, [0])[-1]` (systemic copy). -/
def lastVal (prog : List (Int × List ℚ)) (v : Int) : ℚ :=
  ((prog.find? (·.1 == v)).map (fun p => p.2.getLastD 0)).getD 0

/-- `node in cascade_progression` (systemic copy). -/
def tracked (prog : List (Int × List ℚ)) (v : Int) : Bool :=
  prog.any (·.1 == v)

/-- Neighbor-influence sum (systemic copy). -/
def neighbor_influence (risk_network : NXGraph) (prog : List (Int × List ℚ))
    (node : Int) : ℚ :=
  (risk_network.neighbors node).foldl
    (fun acc nbr => fadd acc (fmul (lastVal prog nbr) (weightD risk_network node nbr))) 0

/-- The `new_activations` dict of one step (systemic copy). -/
def new_activations (risk_network : NXGraph) (prog : List (Int × List ℚ))
    (threshold : ℚ) : List (Int × ℚ) :=
  risk_network.nodeKeys.filterMap (fun node =>
    if tracked prog node then none
    else if threshold < neighbor_influence risk_network prog node then
      some (node, neighbor_influence risk_network prog node)
    else none)

/-- `len(next(iter(cascade_progression.values()))) - 1` (systemic copy). -/
def backfillLen (prog : List (Int × List ℚ)) : ℕ :=
  ((prog.head?.map (fun p => p.2.length)).getD 0) - 1

/-- Backfill of the newly activated nodes (systemic copy). -/
def applyActivations (prog : List (Int × List ℚ)) (na : List (Int × ℚ)) :
    List (Int × List ℚ) :=
  na.foldl
    (fun p q => p ++ [(q.1, List.replicate (backfillLen p) 0 ++ [q.2])])
    prog

/-- Per-series append of the last value (systemic copy). -/
def appendLast (prog : List (Int × List ℚ)) : List (Int × List ℚ) :=
  prog.map (fun p => (p.1, p.2 ++ [p.2.getLastD 0]))

/-- The propagation loop (systemic copy). -/
def cascadeLoop (risk_network : NXGraph) (threshold : ℚ) :
    ℕ → List (Int × List ℚ) → List (Int × List ℚ)
  | 0, prog => prog
  | steps + 1, prog =>
    if (new_activations risk_network prog threshold).isEmpty then prog
    else cascadeLoop risk_network threshold steps
      (appendLast (applyActivations prog (new_activations risk_network prog threshold)))

/-- `{risk: [1.0] for risk in initial_risks}` (systemic copy). -/
def initProg (initial_risks : List Int) : List (Int × List ℚ) :=
  initial_risks.foldl
    (fun acc r => if acc.any (·.1 == r) then acc else acc ++ [(r, [1])]) []

/-- `analyze_risk_cascades` (systemic_risk_analysis.py lines 65-85). -/
def analyze_risk_cascades (risk_network : NXGraph) (initial_risks : List Int)
    (threshold : ℚ) (max_steps : ℕ) : List (Int × List ℚ) :=
  cascadeLoop risk_network threshold max_steps (initProg initial_risks)

/-- `identify_risk_feedback_loops` (systemic_risk_analysis.py lines 87-89);
`nx.simple_cycles` is the same library call, so its model is shared. -/
def identify_risk_feedback_loops (risk_network : NXGraph) : List (List Int) :=
  (simple_cycles risk_network).filter (fun loop => 2 < loop.length)

end SystemicRiskAnalysis

theorem cascadeLoop_modules_eq (G : NXGraph) (θ : ℚ) :
    ∀ (n : ℕ) (prog : List (Int × List ℚ)),
    SystemicRiskAnalysis.cascadeLoop G θ n prog = cascadeLoop G θ n prog := by
  intro n
  induction n with
  | zero => intro prog; rfl
  | succ n ih =>
    intro prog
    rw [cascadeLoop, SystemicRiskAnalysis.cascadeLoop,
      show SystemicRiskAnalysis.new_activations = new_activations from rfl,
      show SystemicRiskAnalysis.appendLast = appendLast from rfl,
      show SystemicRiskAnalysis.applyActivations = applyActivations from rfl]
    by_cases h : ((new_activations G prog θ).isEmpty) = true
    · rw [if_pos h, if_pos h]
    · rw [if_neg h, if_neg h, ih]

/-- C10: the duplicated analysis routines of the two modules are
extensionally equal — for every graph, seed list, threshold and step budget
the two `analyze_risk_cascades` agree, and for every graph the two
`identify_risk_feedback_loops` agree. -/
theorem duplicated_routines_extensionally_equal :
    (∀ (risk_network : NXGraph) (initial_risks : List Int) (threshold : ℚ)
        (max_steps : ℕ),
      SystemicRiskAnalysis.analyze_risk_cascades risk_network initial_risks
          threshold max_steps
        = analyze_risk_cascades risk_network initial_risks threshold max_steps) ∧
    (∀ risk_network : NXGraph,
      SystemicRiskAnalysis.identify_risk_feedback_loops risk_network
        = identify_risk_feedback_loops risk_network) := by
  constructor
  · intro G initial θ steps
    show SystemicRiskAnalysis.cascadeLoop G θ steps (SystemicRiskAnalysis.initProg initial)
      = cascadeLoop G θ steps (initProg initial)
    rw [show SystemicRiskAnalysis.initProg = initProg from rfl]
    exact cascadeLoop_modules_eq G θ steps (initProg initial)
  · intro G
    rfl

end RiskAssessment
